import Mathlib

/-!
Verification of the `part-theme` resolution engine (src/lib/part-theme.js).

Strings are modelled as `List Char` (JS strings). JS objects used as ordered
string-keyed maps are modelled as association lists in insertion order:
property assignment `o[k] = v` is `upsert` (overwrite in place, append when
absent), `for (let k in o)` is a left fold over the list, and property read
is `List.lookup`.

DOM elements taking part in resolution are modelled by `Node`: the chain
`element -> getRootNode().host -> ...` is the `container` chain, with
`Node.root` standing for the stopping case (`container === element`, i.e.
no enclosing host).  Resolution-layer nodes carry their part-declaration
cache and scope id already materialised (in the source, `propsFromElement`
reaches `partIdForElement` only after `partDataForElement` returned a
non-null list, at which point the id was assigned by the style transform);
the lazy cache itself is modelled separately and statefully (`ElemState`,
`initParts`, `ensurePartData`).
-/

namespace PartTheme

abbrev Str := List Char

/-- JS `\s` for the character set occurring in CSS/attribute text (ASCII). -/
def wsChar (c : Char) : Bool :=
  c = ' ' || c = '\t' || c = '\n' || c = '\r' || c = '\x0b' || c = '\x0c'

/-- JS `String.prototype.trim`. -/
def trim (l : Str) : Str :=
  ((l.dropWhile wsChar).reverse.dropWhile wsChar).reverse

/-- JS `attr.split(',')`. -/
def splitOnComma (l : Str) : List Str := l.splitOn ','

/-- The whitespace-separated tokens of a string (the successive `[^\s]+`
matches used by the partmap entry regex). -/
def wsTokens (l : Str) : List Str := (l.splitOnP wsChar).filter (· ≠ [])

/-- One parsed `part`/`partmap` entry: `{name, forward}`.  `none` models a
JS `undefined`/`null` field. -/
structure PartRef where
  name : Option Str
  forward : Option Str
deriving DecidableEq

/-- Source `partInfoFromAttr` (lines 192–199): split the `part` attribute on
commas and push one `{name: piece.trim(), forward: null}` per piece.  A
missing attribute (JS `null`) or the empty string is falsy, giving `[]`. -/
def partInfoFromAttr (attr : Option Str) : List PartRef :=
  match attr with
  | none => []
  | some a =>
    if a = [] then []
    else (splitOnComma a).foldl (fun parts p => parts ++ [⟨some (trim p), none⟩]) []

/-- Source `partInfoFromPartmap` (lines 206–216).  Per comma piece:
an empty piece is falsy, so `m` is set to `[]`, which is *truthy* in JS, and
`{name: m[2] || m[1], forward: m[1]}` pushes a reference with both fields
`undefined`; a non-empty piece is matched against
`\s*([^\s]+)(?:\s+([^\s]+))?\s*`, which fails (null, dropped) only on
all-whitespace pieces and otherwise captures the first whitespace token as
`m[1] = forward` and the second (if any) as `m[2]`, with `name = m[2] || m[1]`. -/
def partInfoFromPartmap (attr : Option Str) : List PartRef :=
  match attr with
  | none => []
  | some a =>
    if a = [] then []
    else (splitOnComma a).foldl (fun parts p =>
      if p = [] then parts ++ [⟨none, none⟩]
      else
        match wsTokens p with
        | [] => parts
        | [t1] => parts ++ [⟨some t1, some t1⟩]
        | t1 :: t2 :: _ => parts ++ [⟨some t2, some t1⟩]) []

/-! ### Ordered string-keyed maps (JS objects) -/

/-- JS property assignment `o[k] = v`: overwrite in place (the key keeps its
insertion position), append at the end when absent. -/
def upsert {α : Type} (l : List (Str × α)) (k : Str) (v : α) : List (Str × α) :=
  match l with
  | [] => [(k, v)]
  | (k0, v0) :: t => if k0 = k then (k, v) :: t else (k0, v0) :: upsert t k v

/-- JS property read `o[k]` on an ordered map. -/
def alookup {α : Type} : List (Str × α) → Str → Option α
  | [], _ => none
  | (k0, v) :: t, k => if k0 = k then some v else alookup t k

/-- A declaration's property block: ordered CSS property name → value. -/
abbrev AList := List (Str × Str)

/-- A resolved property map: bucket key (`endSelector` or empty) → ordered
property name → custom-property reference expression. -/
abbrev PMap := List (Str × AList)

/-- One `::part`/`::theme` declaration record produced by the transform
(source line 80: `{selector, endSelector, name, props, isTheme}`). -/
structure PartDecl where
  name : Str
  selector : Str
  endSelector : Str
  props : AList
  isTheme : Bool
deriving DecidableEq

/-- JS `endSelector.replace(/\:/g, '')`. -/
def stripColons (s : Str) : Str := s.filter (fun c => c ≠ ':')

def natStr (n : Nat) : Str := (Nat.repr n).data

/-- Source `varForPart` (lines 103–105): the custom-property name
`--e<id>-part-<name>-<prop>` with `-<endSelector minus colons>` appended when
`endSelector` is non-empty (truthy). -/
def varForPart (id : Nat) (name prop endSelector : Str) : Str :=
  "--e".data ++ natStr id ++ "-part-".data ++ name ++ "-".data ++ prop ++
    (if endSelector = [] then [] else '-' :: stripColons endSelector)

/-- JS `Object.assign(tgt, src)`: copy every own property of `src` into `tgt`
in order, overwriting existing keys. -/
def objAssign (tgt src : AList) : AList :=
  src.foldl (fun t pv => upsert t pv.1 pv.2) tgt

/-- The both-present case of `mixPartProps` (source lines 336–342): for every
bucket of `b`, ensure the bucket exists in `a` (`if (!a[i]) a[i] = {}`) and
`Object.assign` `b`'s bucket into it. -/
def mixPMaps (a b : PMap) : PMap :=
  b.foldl (fun acc kv =>
    let cur := match alookup acc kv.1 with
      | some bk => bk
      | none => []
    upsert acc kv.1 (objAssign cur kv.2)) a

/-- Source `mixPartProps` (lines 334–345): mutate-and-return `a` when both are
present, otherwise `a || b`. -/
def mixPartProps (a b : Option PMap) : Option PMap :=
  match a, b with
  | some a', some b' => some (mixPMaps a' b')
  | some a', none => some a'
  | none, b' => b'

/-- Source `addPartProps` (lines 324–332): ensure the `endSelector` bucket
exists and set, for every declared property `p`, the bucket entry `p` to
`var(<varForPart id name p endSelector>)`. -/
def addPartProps (props : Option PMap) (part : PartDecl) (id : Nat) (name : Str) :
    Option PMap :=
  let ps := props.getD []
  let bucket := part.endSelector
  let b0 := (alookup ps bucket).getD []
  let b1 := part.props.foldl
    (fun b pv => upsert b pv.1 ("var(".data ++ varForPart id name pv.1 part.endSelector ++ ")".data)) b0
  some (upsert ps bucket b1)

/-! ### Selector match pre-filter -/

/-- The static-match hints a scope's class may declare: `constClasses` is
absent (undefined/null), a boolean (the "all classes are constant" marker —
JS tests `typeof === 'boolean'`), or an array of class names;
`constAttributes` is absent or an array of attribute names. -/
inductive ConstClassesVal where
  | undef
  | bool (b : Bool)
  | arr (cs : List Str)
deriving DecidableEq

structure Hints where
  constClasses : ConstClassesVal
  constAttributes : Option (List Str)
deriving DecidableEq

/-- The `element.constructor.constClasses && (typeof ... === 'boolean' ||
constClasses.indexOf(name) !== -1)` test from source line 309. -/
def constClassHolds (h : Hints) (nm : Str) : Bool :=
  match h.constClasses with
  | .undef => false
  | .bool b => b
  | .arr cs => cs.contains nm

/-- The `element.constructor.constAttributes &&
constAttributes.indexOf(attributeName) !== -1` test from source line 310. -/
def constAttrHolds (h : Hints) (nm : Str) : Bool :=
  match h.constAttributes with
  | none => false
  | some cs => cs.contains nm

/-- The replacement decision of source lines 308–311 for a class/pseudo
component `(\.|:|::)([^.#:[]+)`: the component text is kept iff the sequence
is the last one and the prefix is `.` and the class name is constant;
otherwise it is replaced by the empty string. -/
def keepClassOrPseudo (h : Hints) (isLast : Bool) (pfx nm : Str) : Bool :=
  isLast && (pfx = ".".data) && constClassHolds h nm

/-- The replacement decision of source lines 308–311 for an attribute
component `\[([^=]+)(?:=[^\]]+)?\]`: kept iff the sequence is the last one,
the captured attribute name is truthy and listed in `constAttributes`.
The second `Str` argument is the full component text after `[` (unused by
the source decision, which looks only at the captured name). -/
def keepAttrComp (h : Hints) (isLast : Bool) (nm : Str) (_consumed : Str) : Bool :=
  isLast && !nm.isEmpty && constAttrHolds h nm

/-- Characters allowed in a class/pseudo name: `[^.#:[]`. -/
def classNameChar (c : Char) : Bool :=
  c ≠ '.' && c ≠ '#' && c ≠ ':' && c ≠ '['

/-- Index of the last occurrence of `c` in `l`. -/
def lastIdxOf : Str → Char → Option Nat
  | [], _ => none
  | a :: t, c =>
    match lastIdxOf t c with
    | some k => some (k + 1)
    | none => if a = c then some 0 else none

/-- JS matching of `\[([^=]+)(?:=[^\]]+)?\]` at the start of `'[' :: t`
(greedy with backtracking): returns the captured attribute name and the
consumed text after the `[` (through the closing `]`).
With no `=` in `t`, the greedy `[^=]+` backtracks until `\]` fits, i.e. the
name runs up to the *last* `]` (at index ≥ 1, the name being non-empty).
With an `=`: the name is the maximal `=`-free prefix `M`; the optional
`=[^\]]+` group succeeds iff a `]` follows at distance ≥ 2 after the `=`;
otherwise the engine backtracks inside `M` looking for a final `]` there. -/
def matchAttr (t : Str) : Option (Str × Str) :=
  let M := t.takeWhile (fun c => c ≠ '=')
  if M.length = t.length then
    match lastIdxOf t ']' with
    | some k => if 1 ≤ k then some (t.take k, t.take (k + 1)) else none
    | none => none
  else if M = [] then none
  else
    let u := t.drop (M.length + 1)
    let Q := u.takeWhile (fun c => c ≠ ']')
    if !Q.isEmpty && Q.length < u.length then
      some (M, M ++ '=' :: (Q ++ [']']))
    else
      match lastIdxOf M ']' with
      | some k => if 1 ≤ k then some (M.take k, M.take (k + 1)) else none
      | none => none

/-- One pass of `sequence.replace(constSelectorRe, cb)` (source lines
296, 307–312), parameterised by the two keep decisions so that the claimed
and the actual decision can be compared over the same scanner.  The scan
tries, at each position, the class/pseudo alternative then the attribute
alternative, emits the component text when the decision keeps it, and
advances one character when no component matches.  The `Nat` fuel is the
remaining text length (each step consumes at least one character). -/
def compScan (keepCP : Bool → Str → Str → Bool) (keepA : Bool → Str → Str → Bool)
    (isLast : Bool) : Nat → Str → Str
  | 0, l => l
  | fuel + 1, [] => []
  | fuel + 1, c :: t =>
    if c = '.' then
      let nm := t.takeWhile classNameChar
      if nm.isEmpty then '.' :: compScan keepCP keepA isLast fuel t
      else (if keepCP isLast ".".data nm then '.' :: nm else []) ++
        compScan keepCP keepA isLast fuel (t.drop nm.length)
    else if c = ':' then
      match t with
      | ':' :: t2 =>
        let nm := t2.takeWhile classNameChar
        if nm.isEmpty then ':' :: compScan keepCP keepA isLast fuel t
        else (if keepCP isLast "::".data nm then ':' :: ':' :: nm else []) ++
          compScan keepCP keepA isLast fuel (t2.drop nm.length)
      | _ =>
        let nm := t.takeWhile classNameChar
        if nm.isEmpty then ':' :: compScan keepCP keepA isLast fuel t
        else (if keepCP isLast ":".data nm then ':' :: nm else []) ++
          compScan keepCP keepA isLast fuel (t.drop nm.length)
    else if c = '[' then
      match matchAttr t with
      | some (nm, consumed) =>
        (if keepA isLast nm consumed then '[' :: consumed else []) ++
          compScan keepCP keepA isLast fuel (t.drop consumed.length)
      | none => '[' :: compScan keepCP keepA isLast fuel t
    else c :: compScan keepCP keepA isLast fuel t

/-- A combinator position for `selectorSeqRe` (source line 289): whitespace
or `>`/`~`/`+`. -/
def combChar (c : Char) : Bool := wsChar c || c = '>' || c = '~' || c = '+'

/-- JS `selector.replace(selectorSeqRe, seq => seq.replace(constSelectorRe, ...))`
(source lines 289, 306–313): split the selector into maximal runs of
non-combinator characters; the capture group `([^\s>~+]+$)` is defined —
`isLast` truthy — exactly when the run extends to the end of the string.
Combinator characters pass through unchanged. -/
def seqScan (keepCP keepA : Bool → Str → Str → Bool) : Nat → Str → Str
  | 0, l => l
  | fuel + 1, [] => []
  | fuel + 1, c :: t =>
    if combChar c then c :: seqScan keepCP keepA fuel t
    else
      let run := c :: t.takeWhile (fun d => !combChar d)
      let rest := t.drop (t.takeWhile (fun d => !combChar d)).length
      compScan keepCP keepA rest.isEmpty run.length run ++ seqScan keepCP keepA fuel rest

/-- The pruned (`constSelector`) string that `isMatchingPossible` hands to
`element.matches` (source lines 305–314). -/
def constSelectorOf (h : Hints) (sel : Str) : Str :=
  seqScan (keepClassOrPseudo h) (keepAttrComp h) sel.length sel

/-! ### Resolution-layer node model -/

/-- Per-node data visible to the resolution engine: the (already
materialised) part-declaration cache — `none` models the `null` "no
declarations" sentinel —, the scope id, the `partmap` attribute (`none` when
absent), the static-match hints of the node's class, and the node's
`matches` primitive. -/
structure NodeData where
  partData : Option (List PartDecl)
  id : Nat
  partmap : Option Str
  hints : Hints
  elMatches : Str → Bool

/-- A node together with its chain of enclosing scope hosts
(`getRootNode().host` repeatedly).  `root` is the stopping case of
`propsForPart`: no enclosing host (`container === element`). -/
inductive Node where
  | root (d : NodeData)
  | node (d : NodeData) (container : Node)

def Node.data : Node → NodeData
  | .root d => d
  | .node d _ => d

def Node.height : Node → Nat
  | .root _ => 0
  | .node _ c => c.height + 1

/-- Source `isMatchingPossible` (lines 305–315): prune the selector and hand
the result to the element's `matches` primitive.  There is no special case
for an empty or universal pruned selector. -/
def isMatchingPossible (element : Node) (selector : Str) : Bool :=
  (Node.data element).elMatches (constSelectorOf (Node.data element).hints selector)

/-- Source `propsFromElement` (lines 269–281): fold the container's part
declarations, adding the buckets of every declaration whose name matches,
whose theme flag satisfies `requireTheme`, and whose selector passes the
pre-filter against `element`. -/
def propsFromElement (name : Str) (cData : NodeData) (element : Node)
    (requireTheme : Bool) : Option PMap :=
  match cData.partData with
  | none => none
  | some parts =>
    parts.foldl (fun props part =>
      if part.name = name ∧ (!requireTheme || part.isTheme) = true ∧
          isMatchingPossible element part.selector = true then
        addPartProps props part cData.id name
      else props) none

/-- JS `'*' ∈ s` via `indexOf`. -/
def hasStar (s : Str) : Bool := s.contains '*'

/-- JS `s.replace('*', rep)`: replace the first occurrence only. -/
def replaceFirst : Str → Char → Str → Str
  | [], _, _ => []
  | c :: t, pat, rep => if c = pat then rep ++ t else c :: replaceFirst t pat rep

/-- Source `propsForPart` (lines 229–256).  Step by step:
return `undefined` at the top of the tree; collect the container's own
matching declarations; recurse on the container with `requireTheme` forced
true and merge; unless `requireTheme`, parse the **element's** `partmap`
attribute and, for every reference whose forward equals `name` or contains
`*`, recurse on the container with the (wildcard-substituted) local name and
merge. -/
def propsForPart (name : Str) (element : Node) (requireTheme : Bool) : Option PMap :=
  match element with
  | .root _ => none
  | .node d container =>
    let props := propsFromElement name (Node.data container) (Node.node d container) requireTheme
    let themeProps := propsForPart name container true
    let props := mixPartProps props themeProps
    if requireTheme then props
    else
      (partInfoFromPartmap d.partmap).foldl (fun props info =>
        match info.forward with
        | none => props
        | some f =>
          let catchAll := hasStar f
          if (name = f) ∨ catchAll = true then
            let ancestorName :=
              if catchAll then replaceFirst (info.name.getD []) '*' name
              else info.name.getD []
            mixPartProps props (propsForPart ancestorName container false)
          else props) props

/-! ### CSS rule transform (`partCssToCustomPropCss`) -/

/-- Parse one declaration block (source lines 69–78): split on `;` (the
source splits on `/\s*;\s*/`; the whitespace the regex absorbs around each
`;` is removed by the `trim` applied to every piece anyway), drop blank
pieces, split each piece at its first `:` into a trimmed name and a trimmed
value (later colons stay in the value), and assign into the ordered map. -/
def parseProps (propsStr : Str) : AList :=
  (propsStr.splitOn ';').foldl (fun props piece =>
    let p := trim piece
    if p.isEmpty then props
    else
      let nm := p.takeWhile (fun c => c ≠ ':')
      let v := if nm.length = p.length then [] else trim (p.drop (nm.length + 1))
      upsert props (trim nm) v) []

/-- The custom-property assignment lines emitted for one matched rule
(source lines 81–84): for each declared property, in order,
`\n\t<varForPart id name p endSelector>: <value>;`. -/
def partPropsLines (id : Nat) (name endSel : Str) (props : AList) : Str :=
  props.foldl (fun acc pv =>
    acc ++ '\n' :: '\t' :: (varForPart id name pv.1 endSel ++ ':' :: ' ' :: (pv.2 ++ [';']))) []

/-- JS `.` (no dotall): any character except line terminators. -/
def lineChar (c : Char) : Bool := c ≠ '\n' && c ≠ '\r'

/-- Try to match, at the start of `t`, the tail of `cssRe` (source line 100)
beginning at the `::part`/`::theme` literal:
`(::(?:part|theme))\(([^)]+)\)([^\s{]*)\s*{\s*([^}]*)}`.
Returns `(isTheme, name, endSelector, propsStr, rest)`.  The name runs to
the first `)` and must be non-empty; `endSelector` is the maximal run
without whitespace or `{`; after optional whitespace a `{` must follow, then
the properties run to the first `}`, which must exist. -/
def viableTail (t : Str) : Option (Bool × Str × Str × Str × Str) :=
  let parse := fun (isTheme : Bool) (p : Str) =>
    let nm := p.takeWhile (fun c => c ≠ ')')
    if nm.isEmpty || nm.length = p.length then none
    else
      let afterName := p.drop (nm.length + 1)
      let endSel := afterName.takeWhile (fun c => !wsChar c && c ≠ '\x7b')
      let afterE := (afterName.drop endSel.length).dropWhile wsChar
      match afterE with
      | '\x7b' :: t2 =>
        let t3 := t2.dropWhile wsChar
        let propsStr := t3.takeWhile (fun c => c ≠ '\x7d')
        if propsStr.length = t3.length then none
        else some (isTheme, nm, endSel, propsStr, t3.drop (propsStr.length + 1))
      | _ => none
  if t.take 7 = "::part(".data then parse false (t.drop 7)
  else if t.take 8 = "::theme(".data then parse true (t.drop 8)
  else none

/-- Search downward for the largest offset `k` (the greedy `(.*)` selector
group) at which the rule tail matches. -/
def findK (afterW : Str) : Nat → Option (Nat × (Bool × Str × Str × Str × Str))
  | 0 =>
    match viableTail afterW with
    | some r => some (0, r)
    | none => none
  | k + 1 =>
    match viableTail (afterW.drop (k + 1)) with
    | some r => some (k + 1, r)
    | none => findK afterW k

/-- Match `cssRe` = `\s*(.*)(::(?:part|theme))\(...\)...{...}` anchored at
the start of `s`: skip the maximal whitespace run (the greedy `\s*`), then
the greedy `(.*)` selector group extends, within the current line, to the
farthest offset at which the rule tail matches.  Returns
`(selector, isTheme, name, endSelector, propsStr, rest)`. -/
def matchCssRuleAt (s : Str) : Option (Str × Bool × Str × Str × Str × Str) :=
  let afterW := s.dropWhile wsChar
  let L := afterW.takeWhile lineChar
  match findK afterW L.length with
  | some (k, (th, nm, e, ps, rest)) => some (afterW.take k, th, nm, e, ps, rest)
  | none => none

/-- The replacement text for one matched rule (source line 85):
`\n<selector or *> {\n\t<trimmed property lines>\n}`. -/
def ruleReplacement (id : Nat) (sel nm e : Str) (props : AList) : Str :=
  '\n' :: (if sel.isEmpty then ['*'] else sel) ++ " \x7b\n\t".data ++
    trim (partPropsLines id nm e props) ++ "\n\x7d".data

/-- The global-replace loop of `partCssToCustomPropCss` (source lines
64–88), threading the element's lazily assigned scope id (`partIdForElement`,
source lines 91–97: `pid` is the element's id slot, `n` the global counter)
and accumulating the declaration records in match order.  At each position
the anchored match is tried; on failure one character is emitted and the
scan advances; on success the replacement is emitted and the scan resumes
after the matched text.  The fuel is the remaining text length. -/
def scanCssLoop (pid : Option Nat) (n : Nat) (parts : Option (List PartDecl)) :
    Nat → Str → (Str × Option (List PartDecl) × Option Nat × Nat)
  | 0, s => (s, parts, pid, n)
  | _fuel + 1, [] => ([], parts, pid, n)
  | fuel + 1, c :: t =>
    match matchCssRuleAt (c :: t) with
    | none =>
      let r := scanCssLoop pid n parts fuel t
      (c :: r.1, r.2)
    | some (sel, th, nm, e, ps, rest) =>
      let props := parseProps ps
      let idn : Nat × Option Nat × Nat :=
        match pid with
        | some i => (i, pid, n)
        | none => (n, some n, n + 1)
      let decl : PartDecl := ⟨nm, sel, e, props, th⟩
      let r := scanCssLoop idn.2.1 idn.2.2 (some ((parts.getD []) ++ [decl])) fuel rest
      (ruleReplacement idn.1 sel nm e props ++ r.1, r.2)

/-- Source `partCssToCustomPropCss` (lines 64–88) as a function of the
element's id slot and the global id counter: returns
`(parts, css, id slot, counter)`; `parts` is `none` (JS `undefined`) when no
rule matched. -/
def partCssToCustomPropCss (pid : Option Nat) (n : Nat) (cssText : Str) :
    Option (List PartDecl) × Str × Option Nat × Nat :=
  let r := scanCssLoop pid n none cssText.length cssText
  (r.2.1, r.1, r.2.2)

/-! ### Part declaration cache -/

/-- The cache-relevant state of one element: its style texts, the
`__cssParts` slot (`none`: the own property is absent; `some none`: the
`null` negative sentinel; `some (some l)`: a declaration list) and the
`__partId` slot. -/
structure ElemState where
  styles : List Str
  partData : Option (Option (List PartDecl))
  partId : Option Nat
deriving Nonempty

/-- The source's `initializeParts` (lines 24–37): run the transform over
every style text, pushing declarations into the `__cssParts` slot (creating
it as `[]` first) and installing the rewritten css whenever the transform
found rules; afterwards, set the slot to the `null` sentinel if it is still
absent.  `n` is the global `partId` counter. -/
def initParts (es : ElemState) (n : Nat) : ElemState × Nat :=
  let r := es.styles.foldl (fun st styleText =>
      let t := partCssToCustomPropCss st.2.2.1 st.2.2.2 styleText
      match t.1 with
      | some ps =>
        (st.1 ++ [t.2.1], some (some (((st.2.1.getD none).getD []) ++ ps)), t.2.2.1, t.2.2.2)
      | none => (st.1 ++ [styleText], st.2.1, t.2.2.1, t.2.2.2))
    (([] : List Str), es.partData, es.partId, n)
  (⟨r.1, match r.2.1 with | none => some none | x => x, r.2.2.1⟩, r.2.2.2)

/-- Source `ensurePartData` (lines 39–43): run the initialisation only when
the element does not yet own a `__cssParts` property. -/
def ensurePartData (es : ElemState) (n : Nat) : ElemState × Nat :=
  if es.partData.isSome then (es, n) else initParts es n

/-- Source `partDataForElement` (lines 45–48). -/
def partDataForElement (es : ElemState) (n : Nat) :
    Option (List PartDecl) × ElemState × Nat :=
  let r := ensurePartData es n
  ((r.1.partData.getD none), r.1, r.2)

/-! ### Comparator definitions for the claims -/

/-- Shorthand for reading one property of one bucket of a resolved map. -/
def bucketLookup (m : PMap) (k p : Str) : Option Str :=
  alookup ((alookup m k).getD []) p

/-- Which node's `partmap` attribute the forwarding step reads. -/
inductive PartmapSrc where
  | fromElement
  | fromContainer
deriving DecidableEq

/-- The resolution engine with the source of the `partmap` attribute made
explicit, following the spec's step description of `resolvePropsForPart`
(§4.5): `fromContainer` formalises the claimed behaviour ("read
`container`'s `partmap` attribute"), `fromElement` the amended one (read the
node's own attribute, as `element.getAttribute('partmap')` does). -/
def resolveAt (src : PartmapSrc) (name : Str) (element : Node) (requireTheme : Bool) :
    Option PMap :=
  match element with
  | .root _ => none
  | .node d container =>
    let props := propsFromElement name (Node.data container) (Node.node d container) requireTheme
    let themeProps := resolveAt src name container true
    let props := mixPartProps props themeProps
    if requireTheme then props
    else
      (partInfoFromPartmap
          (match src with
           | .fromElement => d.partmap
           | .fromContainer => (Node.data container).partmap)).foldl (fun props info =>
        match info.forward with
        | none => props
        | some f =>
          let catchAll := hasStar f
          if (name = f) ∨ catchAll = true then
            let ancestorName :=
              if catchAll then replaceFirst (info.name.getD []) '*' name
              else info.name.getD []
            mixPartProps props (resolveAt src ancestorName container false)
          else props) props

/-- "listed in the scope's constant classes" in the words of claim C2 (the
boolean marker means every class name counts as listed). -/
def claimListedClass (h : Hints) (nm : Str) : Bool :=
  match h.constClasses with
  | .bool true => true
  | .arr cs => cs.contains nm
  | _ => false

def claimListedAttr (h : Hints) (nm : Str) : Bool :=
  match h.constAttributes with
  | some cs => cs.contains nm
  | none => false

/-- Claim C2's pruning decision for class and pseudo-class/element
components: within the last cluster, strip exactly those whose name is
listed in the constant classes; keep everything else, and leave non-last
clusters untouched. -/
def claimKeepCP (h : Hints) (isLast : Bool) (_pfx nm : Str) : Bool :=
  if isLast then !claimListedClass h nm else true

/-- Claim C2's pruning decision for attribute components: within the last
cluster, strip exactly the attribute-presence components (no `=`) whose
attribute name is listed in the constant attributes. -/
def claimKeepAttr (h : Hints) (isLast : Bool) (nm consumed : Str) : Bool :=
  if isLast then !(!consumed.contains '=' && claimListedAttr h nm) else true

/-- The pruning claimed by C2, over the same cluster/component grammar. -/
def claimPrune (h : Hints) (sel : Str) : Str :=
  seqScan (claimKeepCP h) (claimKeepAttr h) sel.length sel

/-- The amended pruning decision for class/pseudo components: a component of
the **last** cluster is kept exactly when it is a class (`.`) whose name is
constant for the scope (boolean marker, or listed); pseudo components are
never kept; components of non-last clusters are always stripped. -/
def amendedKeepCP (h : Hints) (isLast : Bool) (pfx nm : Str) : Bool :=
  if isLast then
    if pfx = ".".data then
      match h.constClasses with
      | .undef => false
      | .bool b => b
      | .arr cs => cs.contains nm
    else false
  else false

/-- The amended pruning decision for attribute components: kept exactly in
the last cluster when the captured attribute name is non-empty and listed in
the scope's constant attributes. -/
def amendedKeepAttr (h : Hints) (isLast : Bool) (nm _consumed : Str) : Bool :=
  if isLast then
    match h.constAttributes with
    | some cs => !nm.isEmpty && cs.contains nm
    | none => false
  else false

/-- The pruning as amended for C2. -/
def amendedPrune (h : Hints) (sel : Str) : Str :=
  seqScan (amendedKeepCP h) (amendedKeepAttr h) sel.length sel

/-- The theme-only projection of a node's cached declarations (C4). -/
def filterThemeData (d : NodeData) : NodeData :=
  { d with partData := d.partData.map (fun l => l.filter (fun p => p.isTheme)) }

/-- The tree with every non-theme declaration removed (C4). -/
def filterThemeTree : Node → Node
  | .root d => .root (filterThemeData d)
  | .node d c => .node (filterThemeData d) (filterThemeTree c)

/-- Fuel-indexed resolution (C9): identical to `propsForPart` except that
every recursive call spends one unit of fuel; `none` reports fuel
exhaustion.  Termination of the source's recursion is the statement that on
any node chain the fuel `height + 1` suffices. -/
def propsForPartFuel : Nat → Str → Node → Bool → Option (Option PMap)
  | 0, _, _, _ => none
  | fuel + 1, name, element, requireTheme =>
    match element with
    | .root _ => some none
    | .node d container => do
      let tp ← propsForPartFuel fuel name container true
      let props := mixPartProps
        (propsFromElement name (Node.data container) (Node.node d container) requireTheme) tp
      if requireTheme then pure props
      else
        (partInfoFromPartmap d.partmap).foldlM (fun props info =>
          match info.forward with
          | none => pure props
          | some f =>
            let catchAll := hasStar f
            if (name = f) ∨ catchAll = true then do
              let fw ← propsForPartFuel fuel
                (if catchAll then replaceFirst (info.name.getD []) '*' name
                 else info.name.getD []) container false
              pure (mixPartProps props fw)
            else pure props) props

/-! ### Concrete fixtures -/

/-- A scope class with no static-match hints. -/
def hAny : Hints := ⟨.undef, none⟩

/-- Hints declaring `foo` as the only constant class. -/
def hFoo : Hints := ⟨.arr ["foo".data], none⟩

def dTop : NodeData := ⟨none, 0, none, hAny, fun _ => true⟩

/-- A container scope declaring the direct (non-theme) rule
`::part(p) { color: red }`, scope id 1. -/
def dDirect : NodeData :=
  ⟨some [⟨"p".data, [], [], [("color".data, "red".data)], false⟩], 1, none, hAny, fun _ => true⟩

/-- A further ancestor scope declaring the theme rule
`::theme(p) { color: blue }`, scope id 2. -/
def dTheme : NodeData :=
  ⟨some [⟨"p".data, [], [], [("color".data, "blue".data)], true⟩], 2, none, hAny, fun _ => true⟩

/-- A plain element scope with no declarations of its own. -/
def dElem : NodeData := ⟨none, 9, none, hAny, fun _ => true⟩

/-- theme ancestor -> direct container -> element (for C1). -/
def nThemeAnc : Node := .node dTheme (.root dTop)
def nDirectC : Node := .node dDirect nThemeAnc
def nElemC1 : Node := .node dElem nDirectC

/-- An ancestor scope declaring `::part(btn-foo) { color: red }`, id 3. -/
def dGrand : NodeData :=
  ⟨some [⟨"btn-foo".data, [], [], [("color".data, "red".data)], false⟩], 3, none, hAny, fun _ => true⟩

/-- A middle scope with no declarations and no `partmap`. -/
def dMid : NodeData := ⟨none, 1, none, hAny, fun _ => true⟩

/-- The element scope carrying `partmap="* btn-*"` (for C3). -/
def dFwd : NodeData := ⟨none, 2, some "* btn-*".data, hAny, fun _ => true⟩

def nGrand : Node := .node dGrand (.root dTop)
def nMid : Node := .node dMid nGrand
def nFwd : Node := .node dFwd nMid

/-- A node whose `matches` primitive rejects every selector (for C8). -/
def nNoMatch : Node := .root ⟨none, 0, none, hAny, fun _ => false⟩

/-- Two property maps with a conflicting `color` in the empty bucket. -/
def pmapRed : PMap := [([], [("color".data, "red".data)])]
def pmapBlue : PMap := [([], [("color".data, "blue".data)])]

/-! ## Theorems -/

/-! ### Shared lemmas on ordered maps and folds -/

theorem alookup_upsert {α : Type} (l : List (Str × α)) (k : Str) (v : α) (k' : Str) :
    alookup (upsert l k v) k' = if k = k' then some v else alookup l k' := by
  induction l with
  | nil => simp [upsert, alookup]
  | cons kv t ih =>
    obtain ⟨k0, v0⟩ := kv
    by_cases h0 : k0 = k
    · subst h0
      by_cases hkk : k0 = k' <;> simp [upsert, alookup, hkk]
    · by_cases h1 : k0 = k'
      · subst h1
        have hk : ¬ (k = k0) := fun hh => h0 hh.symm
        simp [upsert, alookup, h0, hk]
      · simp [upsert, alookup, h0, h1, ih]

theorem alookup_none_of_not_mem {α : Type} (l : List (Str × α)) (k : Str)
    (h : k ∉ l.map Prod.fst) : alookup l k = none := by
  induction l with
  | nil => rfl
  | cons kv t ih =>
    obtain ⟨k0, v0⟩ := kv
    simp only [List.map_cons, List.mem_cons, not_or] at h
    have hne : ¬ (k0 = k) := fun hq => h.1 hq.symm
    simp [alookup, hne, ih h.2]

theorem alookup_objAssign (s : AList) :
    ∀ (t : AList) (p : Str), (s.map Prod.fst).Nodup →
      alookup (objAssign t s) p = (alookup s p <|> alookup t p) := by
  induction s with
  | nil => intro t p _; simp [objAssign, alookup]
  | cons qv s' ih =>
    intro t p hnd
    obtain ⟨q, w⟩ := qv
    simp only [List.map_cons, List.nodup_cons] at hnd
    have step : objAssign t ((q, w) :: s') = objAssign (upsert t q w) s' := rfl
    rw [step, ih (upsert t q w) p hnd.2]
    by_cases hpq : q = p
    · subst hpq
      have hnone : alookup s' q = none :=
        alookup_none_of_not_mem s' q hnd.1
      simp [alookup, hnone, alookup_upsert]
    · simp [alookup, hpq, alookup_upsert]

theorem foldl_acc_append {α β : Type} (g : α → List β) :
    ∀ (l : List α) (acc : List β),
      l.foldl (fun a x => a ++ g x) acc = acc ++ (l.map g).flatten := by
  intro l
  induction l with
  | nil => intro acc; simp
  | cons x l' ih => intro acc; simp [ih]

/-! ### C10: merge identity laws -/

/-- C10: `mixPartProps` treats an absent map as an identity element — a
present `a` merged with an absent `b` is returned unchanged, an absent `a`
with a present `b` returns `b` itself — and with both maps present the
result is `a` extended in place by folding `b`'s buckets into it
(`mixPMaps`), not a fresh object built from `b`. -/
theorem mix_identity_laws :
    (∀ a : Option PMap, mixPartProps a none = a) ∧
    (∀ b : Option PMap, mixPartProps none b = b) ∧
    (∀ a b : PMap, mixPartProps (some a) (some b) = some (mixPMaps a b)) := by
  refine ⟨fun a => ?_, fun b => ?_, fun a b => rfl⟩
  · cases a <;> rfl
  · cases b <;> rfl

/-! ### C6: the transform runs at most once per scope -/

/-- C6: once any operation has stored a result in the `__cssParts` slot —
a declaration list or the `null` sentinel — every later `ensurePartData` or
`partDataForElement` call returns the stored result with the element state
(style texts included) and the id counter untouched, i.e. without
re-running the style transform; and `ensurePartData` always leaves the slot
filled, so a second call is a no-op. -/
theorem transform_runs_once :
    (∀ (es : ElemState) (n : Nat),
      (ensurePartData es n).1.partData.isSome = true ∧
      ensurePartData (ensurePartData es n).1 (ensurePartData es n).2 = ensurePartData es n) ∧
    (∀ (es : ElemState) (n : Nat), es.partData.isSome = true →
      ensurePartData es n = (es, n)) ∧
    (∀ (es : ElemState) (n : Nat), es.partData.isSome = true →
      partDataForElement es n = (es.partData.getD none, es, n)) := by
  have hsome : ∀ (es : ElemState) (n : Nat), (ensurePartData es n).1.partData.isSome = true := by
    intro es n
    by_cases h : es.partData.isSome
    · simp [ensurePartData, h]
    · simp only [ensurePartData, h, if_false, Bool.false_eq_true]
      unfold initParts
      cases hfold :
        (es.styles.foldl (fun st styleText =>
          let t := partCssToCustomPropCss st.2.2.1 st.2.2.2 styleText
          match t.1 with
          | some ps =>
            (st.1 ++ [t.2.1], some (some (((st.2.1.getD none).getD []) ++ ps)), t.2.2.1, t.2.2.2)
          | none => (st.1 ++ [styleText], st.2.1, t.2.2.1, t.2.2.2))
          (([] : List Str), es.partData, es.partId, n)).2.1 with
      | none => simp [hfold]
      | some x => simp [hfold]
  have hskip : ∀ (es : ElemState) (n : Nat), es.partData.isSome = true →
      ensurePartData es n = (es, n) := by
    intro es n h
    simp [ensurePartData, h]
  refine ⟨fun es n => ⟨hsome es n, hskip _ _ (hsome es n)⟩, hskip, fun es n h => ?_⟩
  simp [partDataForElement, hskip es n h]

/-- Witness for C6: a scope that has stored the negative sentinel is left
untouched by a later lookup. -/
theorem transform_runs_once_witness :
    ensurePartData ⟨[".x::part(p) \x7b c: d \x7d".data], some none, none⟩ 5 =
      (⟨[".x::part(p) \x7b c: d \x7d".data], some none, none⟩, 5) :=
  transform_runs_once.2.1 ⟨[".x::part(p) \x7b c: d \x7d".data], some none, none⟩ 5 rfl

/-! ### C1: merge precedence -/

/-- C1 counterexample: the merge does **not** leave a property already
present in the nearer map's bucket untouched — at the concrete maps
the bucket maps sending the empty bucket to color red and color blue, the further map's value
overwrites the nearer one (`Object.assign(a[i], b[i])` copies `b` over
`a`), so the claimed "never overwriting" clause fails. -/
theorem mix_overwrites_counterexample :
    ¬ (∀ (a b : PMap) (k p v : Str),
        bucketLookup a k p = some v → bucketLookup (mixPMaps a b) k p = some v) := by
  intro hcl
  have h := hcl pmapRed pmapBlue [] "color".data "red".data (by decide)
  have h2 : bucketLookup (mixPMaps pmapRed pmapBlue) [] "color".data =
      some "blue".data := by decide
  rw [h2] at h
  exact absurd (Option.some.inj h) (by decide)

/-- C1 as amended: for every pair of property maps merged during
resolution — `a` the nearer (direct) map, `b` the further (theme or
forwarded) map — the merge creates in `a` every bucket key present only in
`b`, and copies `b`'s properties into each bucket **overwriting** a
property already present in `a`'s bucket under the same key: the further
map's value, not the nearer one's, is the one in the result (for
well-formed maps whose bucket keys and per-bucket property keys are
duplicate-free, as all maps built by the engine are). -/
theorem mix_fill_and_overwrite (a b : PMap) (k p : Str)
    (hb : (b.map Prod.fst).Nodup)
    (hbb : ∀ kv ∈ b, ((kv.2.map Prod.fst).Nodup : Prop)) :
    bucketLookup (mixPMaps a b) k p = (bucketLookup b k p <|> bucketLookup a k p) ∧
    (alookup (mixPMaps a b) k).isSome =
      ((alookup a k).isSome || (alookup b k).isSome) := by
  revert hb hbb
  induction b generalizing a with
  | nil =>
    intro hb hbb
    constructor
    · simp [mixPMaps, bucketLookup, alookup]
    · simp [mixPMaps, alookup]
  | cons kv b' ih =>
    intro hb hbb
    obtain ⟨k0, bv⟩ := kv
    simp only [List.map_cons, List.nodup_cons] at hb
    have hbv : (bv.map Prod.fst).Nodup := hbb (k0, bv) (List.mem_cons_self _ _)
    have hbb' : ∀ kv ∈ b', ((kv.2.map Prod.fst).Nodup : Prop) :=
      fun kv hm => hbb kv (List.mem_cons_of_mem _ hm)
    have hstep : mixPMaps a ((k0, bv) :: b') =
        mixPMaps (upsert a k0 (objAssign ((alookup a k0).getD []) bv)) b' := by
      simp only [mixPMaps, List.foldl_cons]
      cases h : alookup a k0 <;> simp [h]
    rw [hstep]
    obtain ⟨ih1, ih2⟩ := ih (upsert a k0 (objAssign ((alookup a k0).getD []) bv)) hb.2 hbb'
    constructor
    · rw [ih1]
      by_cases hk : k0 = k
      · subst hk
        have hb'none : alookup b' k0 = none := alookup_none_of_not_mem b' k0 hb.1
        have hcons : alookup ((k0, bv) :: b') k0 = some bv := by simp [alookup]
        have ha' : alookup (upsert a k0 (objAssign ((alookup a k0).getD []) bv)) k0 =
            some (objAssign ((alookup a k0).getD []) bv) := by
          rw [alookup_upsert]; simp
        unfold bucketLookup
        rw [hb'none, ha', hcons]
        simp only [Option.getD_some, Option.getD_none]
        rw [alookup_objAssign bv _ p hbv]
        cases alookup bv p <;> simp [alookup]
      · have ha' : alookup (upsert a k0 (objAssign ((alookup a k0).getD []) bv)) k =
            alookup a k := by
          rw [alookup_upsert, if_neg hk]
        have hcons : alookup ((k0, bv) :: b') k = alookup b' k := by simp [alookup, hk]
        unfold bucketLookup
        rw [ha', hcons]
    · rw [ih2]
      by_cases hk : k0 = k
      · subst hk
        have ha' : alookup (upsert a k0 (objAssign ((alookup a k0).getD []) bv)) k0 =
            some (objAssign ((alookup a k0).getD []) bv) := by
          rw [alookup_upsert]; simp
        simp [ha', alookup]
      · have ha' : alookup (upsert a k0 (objAssign ((alookup a k0).getD []) bv)) k =
            alookup a k := by
          rw [alookup_upsert, if_neg hk]
        simp [ha', alookup, hk]

/-- Witness for C1's amended theorem at the concrete conflicting maps. -/
theorem mix_fill_and_overwrite_witness :
    ((pmapBlue.map Prod.fst).Nodup ∧ ∀ kv ∈ pmapBlue, ((kv.2.map Prod.fst).Nodup : Prop)) ∧
    bucketLookup (mixPMaps pmapRed pmapBlue) [] "color".data =
      (bucketLookup pmapBlue [] "color".data <|> bucketLookup pmapRed [] "color".data) :=
  ⟨⟨by decide, by decide⟩,
    (mix_fill_and_overwrite pmapRed pmapBlue [] "color".data (by decide) (by decide)).1⟩

/-! ### C5: attribute grammars -/

/-- C5 counterexample: blank entries are **not** dropped.  On the attribute
value `a,,b` the `part` parser returns a reference whose name is the empty
string, and the `partmap` parser returns one with no name at all (the empty
piece is falsy, so `m` is set to `[]`, which is truthy, and
`m[2] || m[1]` is `undefined`) — so "neither parser ever returns a
reference whose name is empty or undefined" fails. -/
theorem parser_blank_counterexample :
    ¬ (∀ (attr : Str) (r : PartRef),
        r ∈ partInfoFromAttr (some attr) ++ partInfoFromPartmap (some attr) →
        ∃ nm, r.name = some nm ∧ nm ≠ []) := by
  intro h
  obtain ⟨nm, hn, hne⟩ := h "a,,b".data ⟨some [], none⟩ (by decide)
  exact hne (Option.some.inj hn).symm

/-- C5 as amended: for every attribute string, `partInfoFromAttr` yields one
reference per comma-separated entry — forward `null`, name the trimmed
token, the name being empty for blank entries, which are *not* dropped
(only an absent or empty attribute yields no references) — and
`partInfoFromPartmap` yields, per entry, forward = first whitespace token
and name = second token (or the first when only one is present), where an
all-whitespace non-empty entry is dropped but an empty entry yields a
reference with *no* name and no forward. -/
theorem parsers_characterized :
    (∀ a : Str, partInfoFromAttr (some a) =
      if a = [] then [] else (splitOnComma a).map (fun p => ⟨some (trim p), none⟩)) ∧
    (∀ a : Str, partInfoFromPartmap (some a) =
      if a = [] then [] else (splitOnComma a).filterMap (fun p =>
        if p = [] then some ⟨none, none⟩
        else match wsTokens p with
          | [] => none
          | [t1] => some ⟨some t1, some t1⟩
          | t1 :: t2 :: _ => some ⟨some t2, some t1⟩)) ∧
    (partInfoFromAttr none = [] ∧ partInfoFromPartmap none = []) := by
  have key1 : ∀ (l : List Str) (acc : List PartRef),
      l.foldl (fun parts p => parts ++ [⟨some (trim p), none⟩]) acc
        = acc ++ l.map (fun p => (⟨some (trim p), none⟩ : PartRef)) := by
    intro l
    induction l with
    | nil => intro acc; simp
    | cons p l' ih => intro acc; simp [ih]
  have key2 : ∀ (l : List Str) (acc : List PartRef),
      l.foldl (fun parts p =>
        if p = [] then parts ++ [⟨none, none⟩]
        else match wsTokens p with
          | [] => parts
          | [t1] => parts ++ [⟨some t1, some t1⟩]
          | t1 :: t2 :: _ => parts ++ [⟨some t2, some t1⟩]) acc
      = acc ++ l.filterMap (fun p =>
          if p = [] then some ⟨none, none⟩
          else match wsTokens p with
            | [] => none
            | [t1] => some ⟨some t1, some t1⟩
            | t1 :: t2 :: _ => some ⟨some t2, some t1⟩) := by
    intro l
    induction l with
    | nil => intro acc; simp
    | cons p l' ih =>
      intro acc
      simp only [List.foldl_cons, List.filterMap_cons]
      by_cases hp : p = []
      · simp [hp, ih]
      · cases hw : wsTokens p with
        | nil => simp [hp, hw, ih]
        | cons t1 rest =>
          cases rest with
          | nil => simp [hp, hw, ih]
          | cons t2 r2 => simp [hp, hw, ih]
  refine ⟨fun a => ?_, fun a => ?_, rfl, rfl⟩
  · by_cases ha : a = []
    · simp [partInfoFromAttr, ha]
    · simp [partInfoFromAttr, ha, key1]
  · by_cases ha : a = []
    · simp [partInfoFromPartmap, ha]
    · simp [partInfoFromPartmap, ha, key2]

/-! ### C3: which partmap attribute forwarding reads -/

/-- C3 counterexample: resolution does **not** behave as if the forwarding
step read the container's `partmap`.  On the concrete tree where the node
itself carries `partmap="* btn-*"`, its container carries none, and a
further ancestor declares `::part(btn-foo)`, the engine forwards (the
node's attribute is read), while the claimed container-reading engine finds
no forwarding entry and resolves to nothing. -/
theorem forwarding_partmap_counterexample :
    ¬ (∀ (name : Str) (el : Node) (rt : Bool),
        propsForPart name el rt = resolveAt .fromContainer name el rt) := by
  intro h
  exact absurd (h "foo".data nFwd false) (by decide)

/-- C3 as amended: when `requireTheme` is false the engine reads the
**node's own** `partmap` attribute (not the container's), and for every
parsed reference whose forward equals the requested name or contains the
wildcard marker it recursively resolves the renamed name (the wildcard in
the reference's local name replaced by the requested name) against the
container, one level further up, merging the result; in particular a
`partmap="* btn-*"` entry on the node causes a request for part `foo` to
also resolve against ancestor part `btn-foo`. -/
theorem forwarding_reads_element_partmap :
    (∀ (el : Node) (name : Str) (rt : Bool),
      propsForPart name el rt = resolveAt .fromElement name el rt) ∧
    propsForPart "foo".data nFwd false =
      some [([], [("color".data, "var(--e3-part-btn-foo-color)".data)])] := by
  constructor
  · intro el
    induction el with
    | root d => intro name rt; rfl
    | node d c ih =>
      intro name rt
      simp only [propsForPart, resolveAt, ih]
  · decide

/-! ### C4: theme isolation -/

theorem node_data_filterTheme (el : Node) :
    Node.data (filterThemeTree el) = filterThemeData (Node.data el) := by
  cases el <;> rfl

theorem fold_themeFilter (name : Str) (idv : Nat) (el el' : Node)
    (hm : ∀ s, isMatchingPossible el' s = isMatchingPossible el s) :
    ∀ (parts : List PartDecl) (acc : Option PMap),
      (parts.filter (fun q => q.isTheme)).foldl
        (fun props part =>
          if part.name = name ∧ (!true || part.isTheme) = true ∧
              isMatchingPossible el' part.selector = true then
            addPartProps props part idv name
          else props) acc
      = parts.foldl
        (fun props part =>
          if part.name = name ∧ (!true || part.isTheme) = true ∧
              isMatchingPossible el part.selector = true then
            addPartProps props part idv name
          else props) acc := by
  intro parts
  induction parts with
  | nil => intro acc; rfl
  | cons p parts' ih =>
    intro acc
    by_cases hth : p.isTheme = true
    · have hfil : (p :: parts').filter (fun q => q.isTheme) =
          p :: parts'.filter (fun q => q.isTheme) := by
        simp [List.filter_cons, hth]
      have hstep : (if p.name = name ∧ (!true || p.isTheme) = true ∧
            isMatchingPossible el' p.selector = true then
          addPartProps acc p idv name else acc)
        = (if p.name = name ∧ (!true || p.isTheme) = true ∧
            isMatchingPossible el p.selector = true then
          addPartProps acc p idv name else acc) := by
        rw [hm]
      rw [hfil, List.foldl_cons, List.foldl_cons, hstep]
      exact ih _
    · have hno : ¬ (p.name = name ∧ (!true || p.isTheme) = true ∧
          isMatchingPossible el p.selector = true) := by
        rintro ⟨-, h2, -⟩
        simp only [Bool.not_true, Bool.false_or] at h2
        exact hth h2
      have hfil : (p :: parts').filter (fun q => q.isTheme) =
          parts'.filter (fun q => q.isTheme) := by
        simp [List.filter_cons, hth]
      rw [hfil, List.foldl_cons, if_neg hno]
      exact ih acc

theorem propsFromElement_themeFilter (name : Str) (cD : NodeData) (el el' : Node)
    (hm : ∀ s, isMatchingPossible el' s = isMatchingPossible el s) :
    propsFromElement name (filterThemeData cD) el' true = propsFromElement name cD el true := by
  have h1 : (filterThemeData cD).partData =
      cD.partData.map (fun l => l.filter (fun q => q.isTheme)) := rfl
  have h2 : (filterThemeData cD).id = cD.id := rfl
  cases hpd : cD.partData with
  | none => simp [propsFromElement, h1, hpd]
  | some parts =>
    simp only [propsFromElement, h1, h2, hpd, Option.map_some']
    exact fold_themeFilter name cD.id el el' hm parts none

/-- C4: theme-only resolution never surfaces a non-theme declaration — for
every part name and node, resolving with `requireTheme = true` over the
actual tree gives exactly the result of resolving over the tree from which
every non-theme declaration has been removed; since the theme recursion of
a plain resolution is such a `requireTheme = true` resolution of the
further ancestors, non-theme declarations of those ancestors never reach a
plain resolution's result through it either. -/
theorem theme_isolation :
    ∀ (name : Str) (el : Node),
      propsForPart name el true = propsForPart name (filterThemeTree el) true := by
  intro name el
  induction el with
  | root d => rfl
  | node d c ih =>
    show _ = propsForPart name (.node (filterThemeData d) (filterThemeTree c)) true
    simp only [propsForPart, if_true]
    rw [← ih, node_data_filterTheme,
      propsFromElement_themeFilter name (Node.data c)
        (.node d c) (.node (filterThemeData d) (filterThemeTree c))
        (fun s => rfl)]

/-! ### C9: termination of the resolution recursion -/

theorem foldlM_option_of_step (g : Option PMap → PartRef → Option (Option PMap))
    (s : Option PMap → PartRef → Option PMap)
    (hg : ∀ acc i, g acc i = some (s acc i)) :
    ∀ (l : List PartRef) (acc : Option PMap),
      List.foldlM g acc l = some (l.foldl s acc) := by
  intro l
  induction l with
  | nil => intro acc; rfl
  | cons i l' ih =>
    intro acc
    rw [List.foldlM_cons, hg acc i]
    simpa using ih (s acc i)

/-- C9: resolution terminates.  The recursion stops, returning empty, as
soon as the node has no container (or the container equals the node,
modelled by `Node.root`); and every recursive call — the theme recursion
and every forwarding recursion — is made against the node's container,
strictly ascending the scope chain, so that running the engine with any
fuel exceeding the chain height completes and agrees with the total
function: the source recursion is bounded by tree depth. -/
theorem resolution_terminates :
    (∀ (name : Str) (d : NodeData) (rt : Bool), propsForPart name (.root d) rt = none) ∧
    (∀ (el : Node) (fuel : Nat) (name : Str) (rt : Bool), Node.height el < fuel →
      propsForPartFuel fuel name el rt = some (propsForPart name el rt)) := by
  constructor
  · intro name d rt; rfl
  · intro el
    induction el with
    | root d =>
      intro fuel name rt h
      cases fuel with
      | zero => exact absurd h (Nat.not_lt_zero _)
      | succ f => rfl
    | node d c ih =>
      intro fuel name rt h
      cases fuel with
      | zero => exact absurd h (Nat.not_lt_zero _)
      | succ f =>
        have hc : Node.height c < f := by
          have : Node.height (Node.node d c) = Node.height c + 1 := rfl
          omega
        have hth : propsForPartFuel f name c true = some (propsForPart name c true) :=
          ih f name true hc
        cases rt with
        | true =>
          simp only [propsForPartFuel, propsForPart, hth, Option.some_bind]
          rfl
        | false =>
          simp only [propsForPartFuel, propsForPart, hth, Option.some_bind]
          simp only [Bool.false_eq_true, if_false, reduceIte]
          refine foldlM_option_of_step _ _ ?_ _ _
          intro acc i
          cases hf : i.forward with
          | none => rfl
          | some fw =>
            simp only []
            by_cases hcond : (name = fw) ∨ hasStar fw = true
            · rw [if_pos hcond, if_pos hcond]
              rw [ih f _ false hc]
              rfl
            · rw [if_neg hcond, if_neg hcond]
              rfl

/-- Witness for C9 at the concrete forwarding tree of height 3. -/
theorem resolution_terminates_witness :
    Node.height nFwd < 4 ∧
      propsForPartFuel 4 "foo".data nFwd false = some (propsForPart "foo".data nFwd false) :=
  ⟨by decide, resolution_terminates.2 nFwd 4 "foo".data false (by decide)⟩

/-! ### C2: what the pre-filter actually strips -/

theorem compScan_ext (k1 k2 a1 a2 : Bool → Str → Str → Bool)
    (hk : ∀ l p n, k1 l p n = k2 l p n) (ha : ∀ l n cns, a1 l n cns = a2 l n cns) :
    ∀ (fuel : Nat) (isLast : Bool) (l : Str),
      compScan k1 a1 isLast fuel l = compScan k2 a2 isLast fuel l := by
  intro fuel
  induction fuel with
  | zero => intro isLast l; rfl
  | succ f ihf =>
    intro isLast l
    cases l with
    | nil => rfl
    | cons c t => simp only [compScan, hk, ha, ihf]

theorem seqScan_ext (k1 k2 a1 a2 : Bool → Str → Str → Bool)
    (hk : ∀ l p n, k1 l p n = k2 l p n) (ha : ∀ l n cns, a1 l n cns = a2 l n cns) :
    ∀ (fuel : Nat) (l : Str), seqScan k1 a1 fuel l = seqScan k2 a2 fuel l := by
  intro fuel
  induction fuel with
  | zero => intro l; rfl
  | succ f ihf =>
    intro l
    cases l with
    | nil => rfl
    | cons c t => simp only [seqScan, ihf, compScan_ext k1 k2 a1 a2 hk ha]

theorem keepCP_eq_amended (h : Hints) :
    ∀ (l : Bool) (pfx nm : Str), keepClassOrPseudo h l pfx nm = amendedKeepCP h l pfx nm := by
  intro l pfx nm
  cases l with
  | false => simp [keepClassOrPseudo, amendedKeepCP]
  | true =>
    by_cases hp : pfx = ".".data
    · cases hcc : h.constClasses with
      | undef => simp [keepClassOrPseudo, amendedKeepCP, hp, constClassHolds, hcc]
      | bool b => simp [keepClassOrPseudo, amendedKeepCP, hp, constClassHolds, hcc]
      | arr cs => simp [keepClassOrPseudo, amendedKeepCP, hp, constClassHolds, hcc]
    · simp [keepClassOrPseudo, amendedKeepCP, hp]

theorem keepAttr_eq_amended (h : Hints) :
    ∀ (l : Bool) (nm cns : Str), keepAttrComp h l nm cns = amendedKeepAttr h l nm cns := by
  intro l nm cns
  cases l with
  | false => simp [keepAttrComp, amendedKeepAttr]
  | true =>
    cases hca : h.constAttributes <;>
      simp [keepAttrComp, amendedKeepAttr, constAttrHolds, hca]

/-- C2 counterexample: the pre-filter does **not** strip exactly the
constant-listed components of the last cluster while leaving the rest
untouched.  With constant classes `["foo"]` and the selector `.foo .bar`,
the claimed pruning leaves the selector unchanged (`bar` is not listed and
`.foo` is not in the last cluster), but the implementation strips **both**:
every matched component of a non-last cluster, and every non-constant
component of the last cluster. -/
theorem prefilter_claim_counterexample :
    ¬ (∀ (h : Hints) (sel : Str), constSelectorOf h sel = claimPrune h sel) := by
  intro hcl
  exact absurd (hcl hFoo ".foo .bar".data) (by decide)

/-- C2 as amended: within the last simple-selector cluster the pre-filter
*keeps* exactly the class components whose name is constant for the scope
(boolean marker or listed) and the attribute components whose captured
attribute name is listed in the constant attributes, and strips every other
class/pseudo/attribute component of the last cluster (pseudo components are
never kept); in every non-last cluster it strips all class, pseudo and
attribute components; only text outside such components (element names,
ids, combinators) is left unchanged. -/
theorem prefilter_prunes_amended :
    ∀ (h : Hints) (sel : Str), constSelectorOf h sel = amendedPrune h sel := by
  intro h sel
  exact seqScan_ext _ _ _ _ (keepCP_eq_amended h) (keepAttr_eq_amended h) sel.length sel

/-! ### C8: the pruned selector is always handed to the matcher -/

/-- C8 counterexample: a pruned-to-empty selector is **not** treated as a
match without a real query — the implementation hands it to the node's
`matches` primitive, whose verdict (here: constant `false`) becomes the
result, contradicting the claimed unconditional `true`. -/
theorem prefilter_no_shortcut_counterexample :
    ¬ (∀ (el : Node) (sel : Str),
        (constSelectorOf (Node.data el).hints sel = [] ∨
         constSelectorOf (Node.data el).hints sel = ['*']) →
        isMatchingPossible el sel = true) := by
  intro hcl
  have h := hcl nNoMatch ".foo".data (Or.inl (by decide))
  exact absurd h (by decide)

theorem foldl_id_of_step {α β : Type} (g : α → β → α) (hg : ∀ a b, g a b = a) :
    ∀ (l : List β) (a : α), l.foldl g a = a := by
  intro l
  induction l with
  | nil => intro a; rfl
  | cons x l' ih => intro a; rw [List.foldl_cons, hg]; exact ih a

/-- C8 as amended: the pre-filter performs no empty/universal shortcut — it
always returns exactly the matcher's verdict on the pruned selector (which
can be the empty string, as the concrete third conjunct shows); resolution
degrades to contributing no styling when the matcher rejects: an element
whose matcher returns false for every selector receives no properties from
any declaration list. -/
theorem prefilter_degrade_amended :
    (∀ (el : Node) (sel : Str),
      isMatchingPossible el sel =
        (Node.data el).elMatches (constSelectorOf (Node.data el).hints sel)) ∧
    (∀ (name : Str) (cD : NodeData) (el : Node) (rt : Bool),
      (∀ s, (Node.data el).elMatches s = false) →
      propsFromElement name cD el rt = none) ∧
    constSelectorOf hAny ".foo".data = [] := by
  refine ⟨fun el sel => rfl, ?_, by decide⟩
  intro name cD el rt hm
  unfold propsFromElement
  cases hpd : cD.partData with
  | none => rfl
  | some parts =>
    refine foldl_id_of_step _ ?_ parts none
    intro acc part
    rw [if_neg]
    rintro ⟨-, -, h3⟩
    rw [isMatchingPossible, hm] at h3
    exact Bool.false_ne_true h3

/-- Witness for C8's amended theorem: a rejecting matcher yields no
contribution from a non-empty declaration list. -/
theorem prefilter_degrade_amended_witness :
    propsFromElement "p".data dGrand nNoMatch false = none :=
  prefilter_degrade_amended.2.1 "p".data dGrand nNoMatch false (fun _ => rfl)

/-! ### C7: custom-property name synthesis -/

/-- C7 counterexample: two declarations differing only by `endSelector` do
**not** always get distinct variable names — the derivation strips colons,
so the suffixes `:h` and `::h` collide. -/
theorem varname_collision_counterexample :
    (":h".data ≠ "::h".data) ∧
    varForPart 1 "x".data "color".data ":h".data =
      varForPart 1 "x".data "color".data "::h".data :=
  ⟨by decide, by decide⟩

theorem transformer_var_lines (id : Nat) (nm e : Str) (props : AList) (p v : Str)
    (hm : (p, v) ∈ props) :
    ∃ s t, partPropsLines id nm e props = s ++ varForPart id nm p e ++ t := by
  obtain ⟨l1, l2, rfl⟩ := List.append_of_mem hm
  refine ⟨((l1.map (fun pv => '\n' :: '\t' ::
      (varForPart id nm pv.1 e ++ ':' :: ' ' :: (pv.2 ++ [';'])))).flatten) ++ ['\n', '\t'],
    (':' :: ' ' :: (v ++ [';'])) ++
      ((l2.map (fun pv => '\n' :: '\t' ::
        (varForPart id nm pv.1 e ++ ':' :: ' ' :: (pv.2 ++ [';'])))).flatten), ?_⟩
  rw [partPropsLines, foldl_acc_append]
  simp [List.map_append, List.flatten_append, List.append_assoc]

theorem alookup_fold_upsert (f : Str → Str) :
    ∀ (l : AList) (b0 : AList) (p : Str),
      alookup (l.foldl (fun b pv => upsert b pv.1 (f pv.1)) b0) p =
        if p ∈ l.map Prod.fst then some (f p) else alookup b0 p := by
  intro l
  induction l with
  | nil => intro b0 p; simp
  | cons qw l' ih =>
    intro b0 p
    rw [List.foldl_cons, ih]
    by_cases hpl : p ∈ l'.map Prod.fst
    · simp [hpl, List.map_cons, List.mem_cons]
    · rw [if_neg hpl, alookup_upsert]
      by_cases hpq : qw.1 = p
      · rw [if_pos hpq, hpq,
          if_pos (show p ∈ (qw :: l').map Prod.fst by
            simp only [List.map_cons, List.mem_cons]
            exact Or.inl hpq.symm)]
      · have hnm : p ∉ (qw :: l').map Prod.fst := by
          simp only [List.map_cons, List.mem_cons, not_or]
          exact ⟨fun hq => hpq hq.symm, hpl⟩
        rw [if_neg hpq, if_neg hnm]

/-- C7 as amended: the custom-property name is a pure deterministic
function of `(scope id, part name, property name, endSelector)` synthesized
by the same `varForPart` derivation at both sites — every property line the
transformer emits for a rule embeds the `varForPart` name of its tuple, and
the resolution engine's bucket entry for a property is exactly
`var(<varForPart name>)` for the same tuple — but two declarations
differing only by `endSelector` obtain distinct names **iff** the
endSelectors differ after colon removal (or exactly one of them is empty):
colon-insensitive suffixes such as `:h` / `::h` collide. -/
theorem varname_synthesis_amended :
    (∀ (id : Nat) (nm e : Str) (props : AList) (p v : Str), (p, v) ∈ props →
      ∃ s t, partPropsLines id nm e props = s ++ varForPart id nm p e ++ t) ∧
    (∀ (props : Option PMap) (part : PartDecl) (id : Nat) (nm p : Str),
      p ∈ part.props.map Prod.fst →
      bucketLookup ((addPartProps props part id nm).getD []) part.endSelector p =
        some ("var(".data ++ varForPart id nm p part.endSelector ++ ")".data)) ∧
    (∀ (id : Nat) (nm p : Str) (e1 e2 : Str),
      varForPart id nm p e1 = varForPart id nm p e2 ↔
        ((e1 = [] ∧ e2 = []) ∨ (e1 ≠ [] ∧ e2 ≠ [] ∧ stripColons e1 = stripColons e2))) := by
  refine ⟨transformer_var_lines, ?_, ?_⟩
  · intro props part id nm p hp
    show alookup ((alookup ((addPartProps props part id nm).getD []) part.endSelector).getD []) p = _
    have h1 : (addPartProps props part id nm).getD [] =
        upsert (props.getD []) part.endSelector
          (part.props.foldl (fun b pv => upsert b pv.1
            ("var(".data ++ varForPart id nm pv.1 part.endSelector ++ ")".data))
            ((alookup (props.getD []) part.endSelector).getD [])) := rfl
    rw [h1, alookup_upsert, if_pos rfl, Option.getD_some]
    rw [alookup_fold_upsert
      (fun q => "var(".data ++ varForPart id nm q part.endSelector ++ ")".data)]
    rw [if_pos hp]
  · intro id nm p e1 e2
    unfold varForPart
    simp only [List.append_assoc, List.append_right_inj]
    by_cases he1 : e1 = [] <;> by_cases he2 : e2 = [] <;>
      simp [he1, he2, List.cons.injEq]

/-- Witness for C7's amended theorem: both synthesis sites evaluated at the
concrete tuple `(1, p, color, "")`. -/
theorem varname_synthesis_amended_witness :
    ((("color".data, "red".data) ∈ ([("color".data, "red".data)] : AList)) ∧
      ∃ s t, partPropsLines 1 "p".data [] [("color".data, "red".data)] =
        s ++ varForPart 1 "p".data "color".data [] ++ t) ∧
    (("color".data ∈ ([("color".data, "red".data)] : AList).map Prod.fst) ∧
      bucketLookup ((addPartProps none
          ⟨"p".data, [], [], [("color".data, "red".data)], false⟩ 1 "p".data).getD [])
        [] "color".data =
        some ("var(".data ++ varForPart 1 "p".data "color".data [] ++ ")".data)) :=
  ⟨⟨by decide,
      varname_synthesis_amended.1 1 "p".data [] [("color".data, "red".data)]
        "color".data "red".data (by decide)⟩,
    ⟨by decide,
      varname_synthesis_amended.2.1 none
        ⟨"p".data, [], [], [("color".data, "red".data)], false⟩ 1 "p".data
        "color".data (by decide)⟩⟩

end PartTheme
